import Mathlib

/-!
# Verification of the transaction codec and sighash engine

A shallow embedding of `src/transaction.js` (Bitcoin transaction model,
binary codec, legacy and BIP143 signature-preimage construction), with
theorems checking the natural-language specification against the code.

Bytes are modelled as `List Nat` (each entry intended `< 256`); machine
integers are `Nat`/`Int` with explicit bounds or `% 2^w` where overflow
matters; fallible operations return `Option`.

External collaborators not present under `src/` (double SHA-256, the
compact-size varint codec, the 64-bit LE amount reader/writer, the script
decompile/filter/compile used to strip `OP_CODESEPARATOR`) are modelled
from the spec and marked as such in their doc comments.
-/

set_option maxRecDepth 4000

/-- A byte string: a list of naturals, each intended to be `< 256`. -/
abbrev Bytes := List Nat

/-- `k` little-endian bytes of `n` (the low `8*k` bits), least significant
byte first; the shape shared by `writeUInt32LE`, `writeInt32LE` and
`writeUInt64LE` writes in the source. -/
def le : Nat → Nat → Bytes
  | 0, _ => []
  | k + 1, n => n % 256 :: le k (n / 256)

/-- Read `k` little-endian bytes from the front of a byte string, returning
the value and the unconsumed tail; fails when fewer than `k` bytes remain
(as the fixed-width `Buffer` reads in the source throw out of range). -/
def readLEn : Nat → Bytes → Option (Nat × Bytes)
  | 0, bs => some (0, bs)
  | _ + 1, [] => none
  | k + 1, b :: bs => (readLEn k bs).map fun p => (b + 256 * p.1, p.2)

/-- `k` big-endian bytes of `n` (used by the SHA-256 model). -/
def beBytes (k n : Nat) : Bytes := (le k n).reverse

/-- Value of one lowercase hex digit. -/
def hexVal (c : Char) : Nat :=
  if c.toNat ≤ 57 then c.toNat - 48 else c.toNat - 87

/-- Modelled from the spec: `Buffer.from(str, 'hex')` — each pair of hex
digits becomes one byte, in order. Used for the `ZERO`, `ONE` and
`VALUE_UINT64_MAX` constants, which the source builds from hex literals. -/
def hexToBytes : List Char → Bytes
  | a :: b :: t => (16 * hexVal a + hexVal b) :: hexToBytes t
  | _ => []

section Sha256
/-!
Modelled from the spec: the `hash256` collaborator (`src/crypto.js`, not
under `src/`) is `SHA-256(SHA-256(x))` (spec §6).  The SHA-256 below is the
standard FIPS 180-4 algorithm over byte strings.
-/

/-- Right rotation of a 32-bit word. -/
def rotr32 (n x : Nat) : Nat := (x >>> n) ||| ((x % 2 ^ n) <<< (32 - n))

/-- SHA-256 `Ch` function. -/
def shaCh (e f g : Nat) : Nat := (e &&& f) ^^^ ((e ^^^ 0xffffffff) &&& g)

/-- SHA-256 `Maj` function. -/
def shaMaj (a b c : Nat) : Nat := (a &&& b) ^^^ (a &&& c) ^^^ (b &&& c)

/-- SHA-256 big sigma 0. -/
def bsig0 (x : Nat) : Nat := rotr32 2 x ^^^ rotr32 13 x ^^^ rotr32 22 x

/-- SHA-256 big sigma 1. -/
def bsig1 (x : Nat) : Nat := rotr32 6 x ^^^ rotr32 11 x ^^^ rotr32 25 x

/-- SHA-256 small sigma 0. -/
def ssig0 (x : Nat) : Nat := rotr32 7 x ^^^ rotr32 18 x ^^^ (x >>> 3)

/-- SHA-256 small sigma 1. -/
def ssig1 (x : Nat) : Nat := rotr32 17 x ^^^ rotr32 19 x ^^^ (x >>> 10)

/-- Pack bytes into big-endian 32-bit words. -/
def bytesToWords : Bytes → List Nat
  | b0 :: b1 :: b2 :: b3 :: r =>
      (((b0 * 256 + b1) * 256 + b2) * 256 + b3) :: bytesToWords r
  | _ => []

/-- The 64 SHA-256 round constants (FIPS 180-4), as the 32-bit words of
this hex string. -/
def shaK : List Nat :=
  bytesToWords (hexToBytes
    (("428a2f9871374491b5c0fbcfe9b5dba53956c25b59f111f1923f82a4ab1c5ed5d807aa9812835b01243185be550c7dc372be5d7480deb1fe9bdc06a7c19bf174" ++
      "e49b69c1efbe47860fc19dc6240ca1cc2de92c6f4a7484aa5cb0a9dc76f988da983e5152a831c66db00327c8bf597fc7c6e00bf3d5a7914706ca635114292967" ++
      "27b70a852e1b21384d2c6dfc53380d13650a7354766a0abb81c2c92e92722c85a2bfe8a1a81a664bc24b8b70c76c51a3d192e819d6990624f40e3585106aa070" ++
      "19a4c1161e376c082748774c34b0bcb5391c0cb34ed8aa4a5b9cca4f682e6ff3748f82ee78a5636f84c878148cc7020890befffaa4506cebbef9a3f7c67178f2").toList))

/-- SHA-256 initial hash state (FIPS 180-4), as the 32-bit words of this
hex string. -/
def shaH0 : List Nat :=
  bytesToWords (hexToBytes (("6a09e667bb67ae853c6ef372a54ff53a510e527f9b05688c1f83d9ab5be0cd19").toList))

/-- Extend the message schedule: `count` more words onto the reversed
accumulator (head = most recent word). -/
def schedGo : Nat → List Nat → List Nat
  | 0, acc => acc.reverse
  | n + 1, acc =>
      schedGo n
        (((ssig1 (acc.getD 1 0) + acc.getD 6 0 + ssig0 (acc.getD 14 0) +
            acc.getD 15 0) % 4294967296) :: acc)

/-- The 64-word message schedule from a 16-word block. -/
def schedule (block16 : List Nat) : List Nat := schedGo 48 block16.reverse

/-- One SHA-256 round: transform the 8-word working state by one
constant/schedule-word pair. -/
def shaRound (st : List Nat) (kw : Nat × Nat) : List Nat :=
  match st with
  | [a, b, c, d, e, f, g, h] =>
      let t1 := (h + bsig1 e + shaCh e f g + kw.1 + kw.2) % 4294967296
      let t2 := (bsig0 a + shaMaj a b c) % 4294967296
      [(t1 + t2) % 4294967296, a, b, c, (d + t1) % 4294967296, e, f, g]
  | _ => st

/-- SHA-256 compression of one 16-word block into the running state. -/
def compress (st : List Nat) (block16 : List Nat) : List Nat :=
  let out := (List.zip shaK (schedule block16)).foldl shaRound st
  List.zipWith (fun x y => (x + y) % 4294967296) st out

/-- Merkle–Damgård padding: append `0x80`, zeros to 56 mod 64, and the
bit length as 8 big-endian bytes. -/
def padSha (msg : Bytes) : Bytes :=
  msg ++ 0x80 :: List.replicate ((120 - (msg.length + 1) % 64) % 64) 0 ++
    beBytes 8 (8 * msg.length)

/-- Split a byte string into 64-byte chunks (structural recursion on a
fuel bound so the definition reduces in the kernel). -/
def chunksGo : Nat → Bytes → List Bytes
  | 0, _ => []
  | _ + 1, [] => []
  | fuel + 1, b :: bs => ((b :: bs).take 64) :: chunksGo fuel ((b :: bs).drop 64)

/-- Split a byte string into 64-byte chunks. -/
def chunk64 (bs : Bytes) : List Bytes := chunksGo bs.length bs

/-- SHA-256 of a byte string. -/
def sha256 (msg : Bytes) : Bytes :=
  (((chunk64 (padSha msg)).foldl (fun st blk => compress st (bytesToWords blk))
    shaH0).map (beBytes 4)).flatten

/-- Modelled from the spec: `bcrypto.hash256` = double SHA-256 (spec §6). -/
def hash256 (msg : Bytes) : Bytes := sha256 (sha256 msg)

end Sha256

section Varuint
/-!
Modelled from the spec: the `varuint-bitcoin` collaborator (spec §4.1 and
the compact-size table in §6) — Bitcoin compact-size varints.
-/

/-- Number of bytes the compact-size encoding of `n` occupies
(`varuint.encodingLength`). -/
def encodingLength (n : Nat) : Nat :=
  if n < 0xfd then 1 else if n ≤ 0xffff then 3 else if n ≤ 0xffffffff then 5 else 9

/-- Compact-size encoding of `n` (`varuint.encode`): the minimal form per
the spec table. -/
def encodeVarInt (n : Nat) : Bytes :=
  if n < 0xfd then [n]
  else if n ≤ 0xffff then 0xfd :: le 2 n
  else if n ≤ 0xffffffff then 0xfe :: le 4 n
  else 0xff :: le 8 n

/-- Compact-size decoding from the front of a byte string
(`varuint.decode`), returning the value and unconsumed tail. -/
def decodeVarInt : Bytes → Option (Nat × Bytes)
  | [] => none
  | b :: r =>
      if b < 0xfd then some (b, r)
      else if b = 0xfd then readLEn 2 r
      else if b = 0xfe then readLEn 4 r
      else readLEn 8 r

end Varuint

/-- Modelled from the spec: the script collaborator
`bscript.compile (bscript.decompile prevOutScript |>.filter (· ≠ OP_CODESEPARATOR))`
(`src/script.js`, not under `src/`).  Per spec §9 this is equivalent to
removing every `0xab` byte that is not part of a push-data payload
(pushes `1..75` carry their own length; `76/77/78` are `OP_PUSHDATA1/2/4`).
Structural recursion on a fuel bound equal to the script length. -/
def stripGo : Nat → Bytes → Bytes
  | 0, r => r
  | _ + 1, [] => []
  | fuel + 1, b :: r =>
      if b = 0xab then stripGo fuel r
      else if 1 ≤ b ∧ b ≤ 75 then b :: (r.take b ++ stripGo fuel (r.drop b))
      else if b = 76 then
        match r with
        | n :: r2 => b :: n :: (r2.take n ++ stripGo fuel (r2.drop n))
        | [] => [b]
      else if b = 77 then
        match r with
        | n1 :: n2 :: r2 =>
            b :: n1 :: n2 :: (r2.take (n1 + 256 * n2) ++
              stripGo fuel (r2.drop (n1 + 256 * n2)))
        | _ => b :: r
      else if b = 78 then
        match r with
        | n1 :: n2 :: n3 :: n4 :: r2 =>
            b :: n1 :: n2 :: n3 :: n4 :: (r2.take (n1 + 256 * (n2 + 256 * (n3 + 256 * n4))) ++
              stripGo fuel (r2.drop (n1 + 256 * (n2 + 256 * (n3 + 256 * n4)))))
        | _ => b :: r
      else b :: stripGo fuel r

/-- The `prev_script` with `OP_CODESEPARATOR` tokens removed (the
`ourScript` computed at the top of `hashForSignature`). -/
def stripCodeSeparator (s : Bytes) : Bytes := stripGo s.length s

/-!  ## Data model (spec §3, `src/transaction.js` constructor / `addInput` /
`addOutput` / `fromBuffer`). -/

/-- An output's value: either a numeric satoshi amount or a pre-encoded
8-byte placeholder buffer (`valueBuffer`, used only by `BLANK_OUTPUT`). -/
inductive OutValue where
  | amount (v : Nat)
  | raw (b : Bytes)
  deriving DecidableEq, Repr, Inhabited

/-- A transaction output (`{ script, value }`, where `value` may instead be
a `valueBuffer` placeholder). -/
structure TxOut where
  script : Bytes
  value : OutValue
  deriving DecidableEq, Repr, Inhabited

/-- A transaction input
(`{ hash, index, script, sequence, witness }`). -/
structure TxIn where
  hash : Bytes
  index : Nat
  script : Bytes
  sequence : Nat
  witness : List Bytes
  deriving DecidableEq, Repr, Inhabited

/-- The transaction value: `version` (signed 32-bit), `locktime`
(unsigned 32-bit), ordered inputs and outputs. -/
structure Transaction where
  version : Int
  locktime : Nat
  ins : List TxIn
  outs : List TxOut
  deriving DecidableEq, Repr

/-- `ZERO` constant of the source (32 zero bytes). -/
def ZERO : Bytes :=
  hexToBytes ("0000000000000000000000000000000000000000000000000000000000000000".toList)

/-- `ONE` constant of the source:
`Buffer.from('0000000000000000000000000000000000000000000000000000000000000001', 'hex')`. -/
def ONE : Bytes :=
  hexToBytes ("0000000000000000000000000000000000000000000000000000000000000001".toList)

/-- `VALUE_UINT64_MAX` constant (8 bytes `0xff`). -/
def VALUE_UINT64_MAX : Bytes := hexToBytes ("ffffffffffffffff".toList)

/-- `BLANK_OUTPUT`: empty script and the all-ones 8-byte value placeholder. -/
def BLANK_OUTPUT : TxOut := { script := [], value := .raw VALUE_UINT64_MAX }

/-- `Transaction.SIGHASH_ALL`. -/
def SIGHASH_ALL : Nat := 0x01
/-- `Transaction.SIGHASH_NONE`. -/
def SIGHASH_NONE : Nat := 0x02
/-- `Transaction.SIGHASH_SINGLE`. -/
def SIGHASH_SINGLE : Nat := 0x03
/-- `Transaction.SIGHASH_ANYONECANPAY`. -/
def SIGHASH_ANYONECANPAY : Nat := 0x80
/-- `Transaction.ADVANCED_TRANSACTION_MARKER`. -/
def ADVANCED_TRANSACTION_MARKER : Nat := 0x00
/-- `Transaction.ADVANCED_TRANSACTION_FLAG`. -/
def ADVANCED_TRANSACTION_FLAG : Nat := 0x01
/-- `Transaction.DEFAULT_SEQUENCE`. -/
def DEFAULT_SEQUENCE : Nat := 0xffffffff

/-- `varSliceSize`: varint length prefix plus the script bytes. -/
def varSliceSize (someScript : Bytes) : Nat :=
  encodingLength someScript.length + someScript.length

/-- `vectorSize`: varint count prefix plus the size of each witness item as
a var-slice (the `reduce` in the source). -/
def vectorSize (someVector : List Bytes) : Nat :=
  encodingLength someVector.length +
    someVector.foldl (fun sum witness => sum + varSliceSize witness) 0

/-- `writeVarSlice`: varint length prefix followed by the bytes. -/
def varSlice (slice : Bytes) : Bytes := encodeVarInt slice.length ++ slice

/-- `writeVector`: varint count prefix followed by each item as a var-slice. -/
def encodeVector (vector : List Bytes) : Bytes :=
  encodeVarInt vector.length ++ (vector.map varSlice).flatten

namespace Transaction

/-- The `hasWitnesses` getter: some input has a non-empty witness. -/
def hasWitnesses (tx : Transaction) : Bool :=
  tx.ins.any fun x => x.witness.length != 0

/-- `__byteLength(__allowWitness)`: exact serialized size. -/
def byteLengthW (tx : Transaction) (allowWitness : Bool) : Nat :=
  let hw := allowWitness && tx.hasWitnesses
  (if hw then 10 else 8) +
    encodingLength tx.ins.length +
    encodingLength tx.outs.length +
    tx.ins.foldl (fun sum input => sum + 40 + varSliceSize input.script) 0 +
    tx.outs.foldl (fun sum output => sum + 8 + varSliceSize output.script) 0 +
    (if hw then tx.ins.foldl (fun sum input => sum + vectorSize input.witness) 0 else 0)

/-- The `weight` getter: `base * 3 + total`. -/
def weight (tx : Transaction) : Nat :=
  tx.byteLengthW false * 3 + tx.byteLengthW true

/-- The `virtualSize` getter: `ceil(weight / 4)`. -/
def virtualSize (tx : Transaction) : Nat := (tx.weight + 3) / 4

/-- `clone()`: rebuild the transaction with fresh input and output records
(fields copied one by one, as in the source). -/
def clone (tx : Transaction) : Transaction :=
  { version := tx.version
    locktime := tx.locktime
    ins := tx.ins.map fun txIn =>
      { hash := txIn.hash, index := txIn.index, script := txIn.script,
        sequence := txIn.sequence, witness := txIn.witness }
    outs := tx.outs.map fun txOut => { script := txOut.script, value := txOut.value } }

/-- `writeInt32LE`: the four little-endian bytes of a signed 32-bit value
(two's complement). -/
def le4i (v : Int) : Bytes := le 4 (v % (2 ^ 32 : Int)).toNat

/-- One serialized input: `hash ‖ index u32LE ‖ varslice(script) ‖
sequence u32LE`. -/
def encodeInput (txIn : TxIn) : Bytes :=
  txIn.hash ++ le 4 txIn.index ++ varSlice txIn.script ++ le 4 txIn.sequence

/-- One serialized output: the 8 value bytes (`writeUInt64LE value`, or the
`valueBuffer` verbatim) then `varslice(script)`. -/
def encodeOutput (txOut : TxOut) : Bytes :=
  (match txOut.value with
   | .amount v => le 8 v
   | .raw b => b) ++ varSlice txOut.script

/-- `__toBuffer(buffer, initialOffset, __allowWitness)` as the byte string
the sequential writes produce: version, optional marker+flag, inputs,
outputs, optional witness vectors, locktime. -/
def toBufferAux (tx : Transaction) (allowWitness : Bool) : Bytes :=
  let hw := allowWitness && tx.hasWitnesses
  le4i tx.version ++
    (if hw then [ADVANCED_TRANSACTION_MARKER, ADVANCED_TRANSACTION_FLAG] else []) ++
    encodeVarInt tx.ins.length ++
    (tx.ins.map encodeInput).flatten ++
    encodeVarInt tx.outs.length ++
    (tx.outs.map encodeOutput).flatten ++
    (if hw then (tx.ins.map fun input => encodeVector input.witness).flatten else []) ++
    le 4 tx.locktime

/-- Public `toBuffer`: witness-allowed serialization. -/
def toBuffer (tx : Transaction) : Bytes := tx.toBufferAux true

end Transaction

namespace Transaction

/-- `readInt32LE` reinterpretation of an unsigned 32-bit value as signed
(two's complement). -/
def toI32 (n : Nat) : Int := if n < 2 ^ 31 then (n : Int) else (n : Int) - 2 ^ 32

/-- One input parsed by `fromBuffer`: 32-byte hash, u32 LE index, var-slice
script, u32 LE sequence, empty witness.  `readSlice` mirrors `buffer.slice`,
which clamps at the end of the buffer. -/
def readInput (bs : Bytes) : Option (TxIn × Bytes) :=
  let hash := bs.take 32
  let r1 := bs.drop 32
  (readLEn 4 r1).bind fun (index, r2) =>
  (decodeVarInt r2).bind fun (scriptLen, r3) =>
  let script := r3.take scriptLen
  let r4 := r3.drop scriptLen
  (readLEn 4 r4).bind fun (sequence, r5) =>
  some ({ hash := hash, index := index, script := script,
          sequence := sequence, witness := [] }, r5)

/-- `vinLen` inputs in sequence. -/
def readInputs : Nat → Bytes → Option (List TxIn × Bytes)
  | 0, bs => some ([], bs)
  | n + 1, bs =>
      (readInput bs).bind fun (i, r) =>
      (readInputs n r).bind fun (l, r2) =>
      some (i :: l, r2)

/-- One output parsed by `fromBuffer`: u64 LE value (modelled from the
spec: the `bufferutils.readUInt64LE` collaborator reads an unsigned 64-bit
integer) then a var-slice script. -/
def readOutput (bs : Bytes) : Option (TxOut × Bytes) :=
  (readLEn 8 bs).bind fun (value, r1) =>
  (decodeVarInt r1).bind fun (scriptLen, r2) =>
  some ({ value := .amount value, script := r2.take scriptLen }, r2.drop scriptLen)

/-- `voutLen` outputs in sequence. -/
def readOutputs : Nat → Bytes → Option (List TxOut × Bytes)
  | 0, bs => some ([], bs)
  | n + 1, bs =>
      (readOutput bs).bind fun (o, r) =>
      (readOutputs n r).bind fun (l, r2) =>
      some (o :: l, r2)

/-- `readVarSlice` repeated: the `count` var-slices of a witness vector. -/
def readVarSlices : Nat → Bytes → Option (List Bytes × Bytes)
  | 0, bs => some ([], bs)
  | n + 1, bs =>
      (decodeVarInt bs).bind fun (sliceLen, r1) =>
      (readVarSlices n (r1.drop sliceLen)).bind fun (l, r2) =>
      some (r1.take sliceLen :: l, r2)

/-- `readVector`: varint count then that many var-slices. -/
def readVector (bs : Bytes) : Option (List Bytes × Bytes) :=
  (decodeVarInt bs).bind fun (count, r1) => readVarSlices count r1

/-- One witness vector per input. -/
def readVectors : Nat → Bytes → Option (List (List Bytes) × Bytes)
  | 0, bs => some ([], bs)
  | n + 1, bs =>
      (readVector bs).bind fun (v, r) =>
      (readVectors n r).bind fun (l, r2) =>
      some (v :: l, r2)

/-- `Transaction.fromBuffer(buffer, __noStrict)`: version, unconditional
marker+flag detection on the next two bytes, inputs, outputs, optional
witness vectors with the superfluous-witness check, locktime, and the
strict trailing-bytes check.  Failures (thrown errors and out-of-range
reads) are `none`. -/
def fromBuffer (buffer : Bytes) (noStrict : Bool) : Option Transaction :=
  (readLEn 4 buffer).bind fun (vern, r1) =>
  let version := toI32 vern
  match r1 with
  | marker :: flag :: _ =>
      let r2 := if marker = ADVANCED_TRANSACTION_MARKER ∧
                   flag = ADVANCED_TRANSACTION_FLAG then r1.drop 2 else r1
      (decodeVarInt r2).bind fun (vinLen, r3) =>
      (readInputs vinLen r3).bind fun (ins0, r4) =>
      (decodeVarInt r4).bind fun (voutLen, r5) =>
      (readOutputs voutLen r5).bind fun (outs, r6) =>
      if marker = ADVANCED_TRANSACTION_MARKER ∧ flag = ADVANCED_TRANSACTION_FLAG then
        (readVectors vinLen r6).bind fun (vecs, r7) =>
        let ins1 := List.zipWith (fun inp w => { inp with witness := w }) ins0 vecs
        if ins1.any (fun x => x.witness.length != 0) then
          (readLEn 4 r7).bind fun (locktime, r8) =>
          if noStrict then some ⟨version, locktime, ins1, outs⟩
          else if r8 = [] then some ⟨version, locktime, ins1, outs⟩ else none
        else none
      else
        (readLEn 4 r6).bind fun (locktime, r8) =>
        if noStrict then some ⟨version, locktime, ins0, outs⟩
        else if r8 = [] then some ⟨version, locktime, ins0, outs⟩ else none
  | _ => none

/-!  ## Legacy signature hasher (`hashForSignature`). -/

/-- The output rule of the legacy hasher, applied to the clone:
`SIGHASH_NONE` drops all outputs and zeroes the other inputs' sequences;
`SIGHASH_SINGLE` truncates the outputs to `inIndex + 1`, blanks the
earlier ones, and zeroes the other inputs' sequences; anything else leaves
the clone untouched. -/
def legacyOutsRule (txTmp : Transaction) (inIndex : Nat) (hashType : Nat) :
    Transaction :=
  if hashType &&& 0x1f = SIGHASH_NONE then
    { txTmp with
      outs := [],
      ins := txTmp.ins.mapIdx fun i input =>
        if i = inIndex then input else { input with sequence := 0 } }
  else if hashType &&& 0x1f = SIGHASH_SINGLE then
    { txTmp with
      outs := (txTmp.outs.take (inIndex + 1)).mapIdx fun i o =>
        if i < inIndex then BLANK_OUTPUT else o,
      ins := txTmp.ins.mapIdx fun y input =>
        if y = inIndex then input else { input with sequence := 0 } }
  else txTmp

/-- The input rule of the legacy hasher: `SIGHASH_ANYONECANPAY` keeps only
input `inIndex` and gives it `ourScript`; otherwise every input script is
blanked and input `inIndex` is given `ourScript`. -/
def legacyInsRule (txTmp : Transaction) (inIndex : Nat) (ourScript : Bytes)
    (hashType : Nat) : Transaction :=
  if hashType &&& SIGHASH_ANYONECANPAY ≠ 0 then
    { txTmp with
      ins := [{ txTmp.ins.getD inIndex default with script := ourScript }] }
  else
    let ins1 := txTmp.ins.map fun input => { input with script := ([] : Bytes) }
    { txTmp with
      ins := ins1.set inIndex { ins1.getD inIndex default with script := ourScript } }

/-- The mutated temporary the legacy hasher serializes: `clone()` followed
by the `hashType`-directed output and input rules.  The two `return ONE`
guards of the source are hoisted into `hashForSignature` itself; this
function is only evaluated when both guards have passed. -/
def legacyTmp (tx : Transaction) (inIndex : Nat) (ourScript : Bytes)
    (hashType : Nat) : Transaction :=
  legacyInsRule (legacyOutsRule tx.clone inIndex hashType) inIndex ourScript hashType

/-- `hashForSignature(inIndex, prevOutScript, hashType)`: the two `ONE`
sentinel guards, then `hash256` of the witness-free serialization of the
mutated clone with `hashType` appended as 4 LE bytes. -/
def hashForSignature (tx : Transaction) (inIndex : Nat) (prevOutScript : Bytes)
    (hashType : Nat) : Bytes :=
  if tx.ins.length ≤ inIndex then ONE
  else if hashType &&& 0x1f = SIGHASH_SINGLE ∧ tx.outs.length ≤ inIndex then ONE
  else
    hash256 ((legacyTmp tx inIndex (stripCodeSeparator prevOutScript)
      hashType).toBufferAux false ++ le 4 hashType)

/-!  ## BIP143 witness-v0 signature hasher (`hashForWitnessV0`). -/

/-- `hashPrevouts`: `hash256` of every input's `hash ‖ index u32LE` when
`SIGHASH_ANYONECANPAY` is unset, otherwise the 32 zero bytes. -/
def hashPrevouts (tx : Transaction) (hashType : Nat) : Bytes :=
  if hashType &&& SIGHASH_ANYONECANPAY = 0 then
    hash256 ((tx.ins.map fun txIn => txIn.hash ++ le 4 txIn.index).flatten)
  else ZERO

/-- `hashSequence`: `hash256` of every input's `sequence` u32LE when
`SIGHASH_ANYONECANPAY` is unset and the base mode is neither
`SIGHASH_SINGLE` nor `SIGHASH_NONE`, otherwise the 32 zero bytes. -/
def hashSequence (tx : Transaction) (hashType : Nat) : Bytes :=
  if hashType &&& SIGHASH_ANYONECANPAY = 0 ∧
     hashType &&& 0x1f ≠ SIGHASH_SINGLE ∧ hashType &&& 0x1f ≠ SIGHASH_NONE then
    hash256 ((tx.ins.map fun txIn => le 4 txIn.sequence).flatten)
  else ZERO

/-- `hashOutputs`: all outputs when the base mode is neither `SINGLE` nor
`NONE`; only output `inIndex` for `SINGLE` with `inIndex` in range;
otherwise the 32 zero bytes.  (Outputs here always carry numeric values —
`writeUInt64(out.value)` — which for such outputs serializes exactly as
`encodeOutput`.) -/
def hashOutputs (tx : Transaction) (inIndex : Nat) (hashType : Nat) : Bytes :=
  if hashType &&& 0x1f ≠ SIGHASH_SINGLE ∧ hashType &&& 0x1f ≠ SIGHASH_NONE then
    hash256 ((tx.outs.map encodeOutput).flatten)
  else if hashType &&& 0x1f = SIGHASH_SINGLE then
    match tx.outs[inIndex]? with
    | some output => hash256 (encodeOutput output)
    | none => ZERO
  else ZERO

/-- `hashForWitnessV0(inIndex, prevOutScript, value, hashType)`: the three
sub-digests then `hash256` of the flat BIP143 pre-image.  The source
dereferences `this.ins[inIndex]` with no guard, so an out-of-range index
throws: modelled as `none`. -/
def hashForWitnessV0 (tx : Transaction) (inIndex : Nat) (prevOutScript : Bytes)
    (value : Nat) (hashType : Nat) : Option Bytes :=
  match tx.ins[inIndex]? with
  | none => none
  | some input =>
      some (hash256 (le4i tx.version ++
        tx.hashPrevouts hashType ++
        tx.hashSequence hashType ++
        input.hash ++
        le 4 input.index ++
        varSlice prevOutScript ++
        le 8 value ++
        le 4 input.sequence ++
        tx.hashOutputs inIndex hashType ++
        le 4 tx.locktime ++
        le 4 hashType))

end Transaction

namespace HeapModel
/-!
## Mutation model for the signature hashers

The source language is stateful: input records are heap objects, and the
legacy hasher assigns to `input.sequence` and `input.script` fields.  To
state the frame property ("the hashers do not mutate the transaction they
are called on") non-vacuously, this section re-embeds the hashers with the
mutable state explicit: a store of input records, transactions holding
references into it.  Output records receive no field assignment anywhere in
the source (only the arrays holding them are restructured), so outputs stay
by-value.  `clone()` allocates fresh records at the end of the store, which
is exactly why the original's records survive — the content of the claim.
-/

/-- The store of mutable input records; a reference is an index into it. -/
abbrev InStore := List TxIn

/-- A transaction whose inputs are references into an `InStore`. -/
structure HeapTx where
  version : Int
  locktime : Nat
  ins : List Nat
  outs : List TxOut
  deriving DecidableEq, Repr

/-- The observable transaction: dereference every input. -/
def toTx (st : InStore) (t : HeapTx) : Transaction :=
  ⟨t.version, t.locktime, t.ins.map fun r => st.getD r default, t.outs⟩

/-- `clone()`: allocate a fresh copy of every input record at the end of
the store; the clone's references are the new indices.  Output records are
copied by value. -/
def cloneH (st : InStore) (t : HeapTx) : InStore × HeapTx :=
  (st ++ t.ins.map fun r => st.getD r default,
   { t with ins := List.range' st.length t.ins.length })

/-- A field assignment through a reference: `st[r].f := …`. -/
def setInRec (st : InStore) (r : Nat) (f : TxIn → TxIn) : InStore :=
  st.set r (f (st.getD r default))

/-- The `forEach` that zeroes `input.sequence` for every index `y ≠
inIndex` (`y` counts from the given start). -/
def zeroSeqsGo (st : InStore) (refs : List Nat) (y inIndex : Nat) : InStore :=
  match refs with
  | [] => st
  | r :: rs =>
      zeroSeqsGo
        (if y = inIndex then st
         else setInRec st r fun i => { i with sequence := 0 })
        rs (y + 1) inIndex

/-- The `forEach` that blanks every input's script. -/
def blankScripts (st : InStore) (refs : List Nat) : InStore :=
  refs.foldl (fun s r => setInRec s r fun i => { i with script := ([] : Bytes) }) st

/-- The input rule (`ANYONECANPAY` keeps only input `inIndex` with
`ourScript`; otherwise blank all scripts then set `inIndex`'s), followed by
serialize-and-hash of the temporary. -/
def finishH (st : InStore) (txTmp : HeapTx) (inIndex : Nat) (ourScript : Bytes)
    (hashType : Nat) : InStore × Bytes :=
  if hashType &&& SIGHASH_ANYONECANPAY ≠ 0 then
    let r := txTmp.ins.getD inIndex 0
    let st2 := setInRec st r fun i => { i with script := ourScript }
    let txTmp2 := { txTmp with ins := [r] }
    (st2, hash256 ((toTx st2 txTmp2).toBufferAux false ++ le 4 hashType))
  else
    let st2 := blankScripts st txTmp.ins
    let st3 := setInRec st2 (txTmp.ins.getD inIndex 0) fun i => { i with script := ourScript }
    (st3, hash256 ((toTx st3 txTmp).toBufferAux false ++ le 4 hashType))

/-- `hashForSignature` with the heap explicit: guards, clone, output rule
and sequence zeroing through the clone's references, input rule, hash.
Returns the final store together with the hash. -/
def hashForSignatureH (st : InStore) (t : HeapTx) (inIndex : Nat)
    (prevOutScript : Bytes) (hashType : Nat) : InStore × Bytes :=
  if t.ins.length ≤ inIndex then (st, ONE)
  else
    let ourScript := stripCodeSeparator prevOutScript
    let p := cloneH st t
    if hashType &&& 0x1f = SIGHASH_NONE then
      finishH (zeroSeqsGo p.1 p.2.ins 0 inIndex) { p.2 with outs := [] }
        inIndex ourScript hashType
    else if hashType &&& 0x1f = SIGHASH_SINGLE then
      if t.outs.length ≤ inIndex then (p.1, ONE)
      else
        finishH (zeroSeqsGo p.1 p.2.ins 0 inIndex)
          { p.2 with
            outs := (p.2.outs.take (inIndex + 1)).mapIdx fun i o =>
              if i < inIndex then BLANK_OUTPUT else o }
          inIndex ourScript hashType
    else finishH p.1 p.2 inIndex ourScript hashType

/-- `hashForWitnessV0` with the heap explicit: the source contains no
assignment to any object reachable from `this` (it only fills freshly
allocated scratch buffers), so the store passes through untouched. -/
def hashForWitnessV0H (st : InStore) (t : HeapTx) (inIndex : Nat)
    (prevOutScript : Bytes) (value : Nat) (hashType : Nat) :
    InStore × Option Bytes :=
  (st, (toTx st t).hashForWitnessV0 inIndex prevOutScript value hashType)

end HeapModel

/-- Every output value is either numeric or the 8-byte placeholder — the
shape invariant of the data model, as a decidable check. -/
def valueLen8 (o : TxOut) : Bool :=
  match o.value with
  | .amount _ => true
  | .raw b => b.length == 8

/-- Fixture: the empty transaction. -/
def txEmpty : Transaction := ⟨1, 0, [], []⟩

/-- Fixture: an input carrying a witness. -/
def inW : TxIn := ⟨List.replicate 32 2, 0, [7], 0xffffffff, [[5]]⟩

/-- Fixture: a witness-free input. -/
def inX : TxIn := ⟨List.replicate 32 3, 1, [], 11, []⟩

/-- Fixture: a two-input, three-output transaction with a witness. -/
def txW : Transaction :=
  ⟨1, 0, [inW, inX], [⟨[1], .amount 50⟩, ⟨[], .amount 60⟩, ⟨[2], .amount 70⟩]⟩

/-- Fixture: one input, no outputs. -/
def tx1 : Transaction := ⟨1, 0, [inX], []⟩

/-- Fixture: no inputs, one output. -/
def txZ1 : Transaction := ⟨1, 0, [], [⟨[], .amount 0⟩]⟩

/-- Fixture: a witness-free one-input one-output transaction. -/
def txNW : Transaction := ⟨1, 0, [inX], [⟨[], .amount 5⟩]⟩

/-- The SHA-256 model reproduces the standard digest of the empty string —
a fidelity check of the collaborator model against FIPS 180-4 test data. -/
theorem sha256_empty_vector :
    sha256 [] =
      hexToBytes
        ("e3b0c44298fc1c149afbf4c8996fb92427ae41e4649b934ca495991b7852b855".toList) := by
  decide

/-- The SHA-256 model reproduces the standard digest of `"abc"` (bytes
`61 62 63`), exercising padding, message schedule and compression. -/
theorem sha256_abc_vector :
    sha256 [0x61, 0x62, 0x63] =
      hexToBytes
        ("ba7816bf8f01cfea414140de5dae2223b00361a396177a9cb410ff61f20015ad".toList) := by
  decide

/-!  ## Codec lemmas -/

theorem le_length (k n : Nat) : (le k n).length = k := by
  induction k generalizing n with
  | zero => rfl
  | succ k ih => simp [le, ih]

theorem readLEn_le (k n : Nat) (r : Bytes) :
    readLEn k (le k n ++ r) = some (n % 256 ^ k, r) := by
  induction k generalizing n with
  | zero => simp [le, readLEn, Nat.mod_one]
  | succ k ih =>
      simp only [le, List.cons_append, readLEn, List.append_eq, ih, Option.map_some']
      rw [pow_succ', Nat.mod_mul]

theorem readLEn_le_of_lt (k n : Nat) (r : Bytes) (h : n < 256 ^ k) :
    readLEn k (le k n ++ r) = some (n, r) := by
  rw [readLEn_le, Nat.mod_eq_of_lt h]

theorem decodeVarInt_encodeVarInt (n : Nat) (r : Bytes) (h : n < 2 ^ 64) :
    decodeVarInt (encodeVarInt n ++ r) = some (n, r) := by
  unfold encodeVarInt
  split_ifs with h1 h2 h3
  · simp [decodeVarInt, h1]
  · have : ¬ (0xfd : Nat) < 0xfd := by omega
    simp [decodeVarInt, readLEn_le_of_lt 2 n r (by omega)]
  · simp [decodeVarInt, readLEn_le_of_lt 4 n r (by omega)]
  · simp [decodeVarInt, readLEn_le_of_lt 8 n r (by omega)]

theorem take_append_len (l r : Bytes) : (l ++ r).take l.length = l :=
  List.take_left l r

theorem drop_append_len (l r : Bytes) : (l ++ r).drop l.length = r :=
  List.drop_left l r

namespace Transaction

theorem toI32_le4i (v : Int) (h1 : -2 ^ 31 ≤ v) (h2 : v < 2 ^ 31) (r : Bytes) :
    (readLEn 4 (le4i v ++ r)).map (fun p => (toI32 p.1, p.2)) = some (v, r) := by
  have hlt : (v % (2 ^ 32 : Int)).toNat < 256 ^ 4 := by
    have h0 : (0 : Int) ≤ v % (2 ^ 32 : Int) := Int.emod_nonneg v (by norm_num)
    have h3 : v % (2 ^ 32 : Int) < 2 ^ 32 := Int.emod_lt_of_pos v (by norm_num)
    omega
  rw [le4i, readLEn_le_of_lt _ _ _ hlt, Option.map_some']
  have h0 : (0 : Int) ≤ v % (2 ^ 32 : Int) := Int.emod_nonneg v (by norm_num)
  have h3 : v % (2 ^ 32 : Int) < 2 ^ 32 := Int.emod_lt_of_pos v (by norm_num)
  simp only [Option.some.injEq, Prod.mk.injEq]
  refine ⟨?_, trivial⟩
  unfold toI32
  split_ifs with hcase <;> omega

theorem readInput_encodeInput (i : TxIn) (r : Bytes)
    (hh : i.hash.length = 32) (hidx : i.index < 2 ^ 32)
    (hseq : i.sequence < 2 ^ 32) (hscr : i.script.length < 2 ^ 64) :
    readInput (encodeInput i ++ r) = some ({ i with witness := [] }, r) := by
  unfold readInput encodeInput varSlice
  simp only [List.append_assoc]
  rw [← hh, take_append_len, drop_append_len]
  rw [readLEn_le_of_lt _ _ _ (by simpa using hidx)]
  simp only [Option.some_bind]
  rw [decodeVarInt_encodeVarInt _ _ hscr]
  simp only [Option.some_bind]
  rw [take_append_len, drop_append_len]
  rw [readLEn_le_of_lt _ _ _ (by simpa using hseq)]
  rfl

theorem readInputs_encodeInputs (l : List TxIn) (r : Bytes)
    (hwf : ∀ i ∈ l, i.hash.length = 32 ∧ i.index < 2 ^ 32 ∧
      i.sequence < 2 ^ 32 ∧ i.script.length < 2 ^ 64) :
    readInputs l.length ((l.map encodeInput).flatten ++ r) =
      some (l.map fun i => { i with witness := [] }, r) := by
  induction l with
  | nil => simp [readInputs]
  | cons i t ih =>
      obtain ⟨h1, h2, h3, h4⟩ := hwf i (by simp)
      simp only [List.map_cons, List.flatten_cons, List.length_cons, readInputs,
        List.append_assoc]
      rw [readInput_encodeInput i _ h1 h2 h3 h4]
      simp only [Option.some_bind]
      rw [ih (fun j hj => hwf j (by simp [hj]))]
      simp

theorem readOutput_encodeOutput (s : Bytes) (v : Nat) (r : Bytes)
    (hv : v < 2 ^ 64) (hs : s.length < 2 ^ 64) :
    readOutput (encodeOutput ⟨s, .amount v⟩ ++ r) = some (⟨s, .amount v⟩, r) := by
  unfold readOutput encodeOutput
  simp only [List.append_assoc]
  rw [readLEn_le_of_lt _ _ _ (by simpa using hv)]
  simp only [Option.some_bind, varSlice, List.append_assoc]
  rw [decodeVarInt_encodeVarInt _ _ hs]
  simp only [Option.some_bind]
  rw [take_append_len, drop_append_len]

/-- Every output is carried by a numeric amount below `2^64` and a script
shorter than `2^64` bytes (what the decoder itself always produces, and
what the u64 writer requires). -/
def amountOk (o : TxOut) : Bool :=
  match o.value with
  | .amount v => decide (v < 2 ^ 64) && decide (o.script.length < 2 ^ 64)
  | .raw _ => false

theorem readOutputs_encodeOutputs (l : List TxOut) (r : Bytes)
    (hwf : ∀ o ∈ l, amountOk o) :
    readOutputs l.length ((l.map encodeOutput).flatten ++ r) = some (l, r) := by
  induction l with
  | nil => simp [readOutputs]
  | cons o t ih =>
      have ho := hwf o (by simp)
      obtain ⟨s, vv⟩ := o
      cases vv with
      | raw b => simp [amountOk] at ho
      | amount v =>
          simp only [amountOk, Bool.and_eq_true, decide_eq_true_eq] at ho
          simp only [List.map_cons, List.flatten_cons, List.length_cons, readOutputs,
            List.append_assoc]
          rw [readOutput_encodeOutput s v _ ho.1 ho.2]
          simp only [Option.some_bind]
          rw [ih (fun j hj => hwf j (by simp [hj]))]
          simp

theorem readVarSlices_enc (l : List Bytes) (r : Bytes)
    (hwf : ∀ w ∈ l, w.length < 2 ^ 64) :
    readVarSlices l.length ((l.map varSlice).flatten ++ r) = some (l, r) := by
  induction l with
  | nil => simp [readVarSlices]
  | cons w t ih =>
      simp only [List.map_cons, List.flatten_cons, List.length_cons, readVarSlices,
        varSlice, List.append_assoc]
      rw [decodeVarInt_encodeVarInt _ _ (hwf w (by simp))]
      simp only [Option.some_bind]
      rw [take_append_len, drop_append_len]
      rw [ih (fun j hj => hwf j (by simp [hj]))]
      simp

theorem readVector_encodeVector (l : List Bytes) (r : Bytes)
    (hlen : l.length < 2 ^ 64) (hwf : ∀ w ∈ l, w.length < 2 ^ 64) :
    readVector (encodeVector l ++ r) = some (l, r) := by
  unfold readVector encodeVector
  simp only [List.append_assoc]
  rw [decodeVarInt_encodeVarInt _ _ hlen]
  simp only [Option.some_bind]
  exact readVarSlices_enc l r hwf

theorem readVectors_enc (ws : List (List Bytes)) (r : Bytes)
    (hwf : ∀ w ∈ ws, w.length < 2 ^ 64 ∧ ∀ x ∈ w, x.length < 2 ^ 64) :
    readVectors ws.length ((ws.map encodeVector).flatten ++ r) = some (ws, r) := by
  induction ws with
  | nil => simp [readVectors]
  | cons w t ih =>
      simp only [List.map_cons, List.flatten_cons, List.length_cons, readVectors,
        List.append_assoc]
      rw [readVector_encodeVector w _ (hwf w (by simp)).1 (hwf w (by simp)).2]
      simp only [Option.some_bind]
      rw [ih (fun j hj => hwf j (by simp [hj]))]
      simp

end Transaction

namespace Transaction

/-- Well-formedness of an input: the bounds `typeforce` enforces
(`Hash256bit`, `UInt32`) plus varint-encodable lengths. -/
def WFin (i : TxIn) : Prop :=
  i.hash.length = 32 ∧ i.index < 2 ^ 32 ∧ i.sequence < 2 ^ 32 ∧
    i.script.length < 2 ^ 64 ∧ i.witness.length < 2 ^ 64 ∧
    ∀ w ∈ i.witness, w.length < 2 ^ 64

instance (i : TxIn) : Decidable (WFin i) := by unfold WFin; infer_instance

/-- Well-formedness of a transaction: 32-bit version and locktime,
well-formed inputs, varint-encodable counts. -/
def WF (tx : Transaction) : Prop :=
  -2 ^ 31 ≤ tx.version ∧ tx.version < 2 ^ 31 ∧ tx.locktime < 2 ^ 32 ∧
    tx.ins.length < 2 ^ 64 ∧ tx.outs.length < 2 ^ 64 ∧ ∀ i ∈ tx.ins, WFin i

instance (tx : Transaction) : Decidable (tx.WF) := by unfold WF; infer_instance

theorem readLEn_le4i (v : Int) (r : Bytes) :
    readLEn 4 (le4i v ++ r) = some ((v % (2 ^ 32 : Int)).toNat, r) := by
  have h0 : (0 : Int) ≤ v % (2 ^ 32 : Int) := Int.emod_nonneg v (by norm_num)
  have h3 : v % (2 ^ 32 : Int) < 2 ^ 32 := Int.emod_lt_of_pos v (by norm_num)
  exact readLEn_le_of_lt _ _ _ (by omega)

theorem toI32_emod (v : Int) (h1 : -2 ^ 31 ≤ v) (h2 : v < 2 ^ 31) :
    toI32 (v % (2 ^ 32 : Int)).toNat = v := by
  have h0 : (0 : Int) ≤ v % (2 ^ 32 : Int) := Int.emod_nonneg v (by norm_num)
  have h3 : v % (2 ^ 32 : Int) < 2 ^ 32 := Int.emod_lt_of_pos v (by norm_num)
  unfold toI32
  split_ifs with hcase <;> omega

theorem clone_eq (tx : Transaction) : tx.clone = tx := by
  unfold clone
  cases tx with
  | mk v l i o => simp

theorem encodeVarInt_ne_nil (n : Nat) : encodeVarInt n ≠ [] := by
  unfold encodeVarInt
  split_ifs <;> simp

theorem encodeVarInt_head_pos (n : Nat) (h : 1 ≤ n) :
    ∃ a t, encodeVarInt n = a :: t ∧ a ≠ 0 := by
  unfold encodeVarInt
  split_ifs with h1 h2 h3
  · exact ⟨n, [], rfl, by omega⟩
  · exact ⟨0xfd, le 2 n, rfl, by omega⟩
  · exact ⟨0xfe, le 4 n, rfl, by omega⟩
  · exact ⟨0xff, le 8 n, rfl, by omega⟩

theorem zipWith_restore_witness (l : List TxIn) :
    List.zipWith (fun inp w => { inp with witness := w })
      (l.map fun i => { i with witness := ([] : List Bytes) })
      (l.map fun i => i.witness) = l := by
  induction l with
  | nil => rfl
  | cons i t ih => simp [ih]

theorem map_clear_of_no_witness (l : List TxIn)
    (h : l.any (fun x => x.witness.length != 0) = false) :
    (l.map fun i => { i with witness := ([] : List Bytes) }) = l := by
  induction l with
  | nil => rfl
  | cons i t ih =>
      simp only [List.any_cons, Bool.or_eq_false_iff] at h
      have hw : i.witness = [] := by
        have := h.1
        simp only [bne_eq_false_iff_eq, List.length_eq_zero] at this
        exact this
      simp only [List.map_cons, ih h.2]
      cases i with
      | mk a b c d e =>
          simp only at hw
          simp [hw]

/-- Strict decode inverts witness-allowed encode for every well-formed
transaction with at least one input and numeric output values. -/
theorem fromBuffer_toBufferAux (tx : Transaction) (hwf : tx.WF)
    (hne : tx.ins ≠ []) (hamt : ∀ o ∈ tx.outs, amountOk o) :
    fromBuffer (tx.toBufferAux true) false = some tx := by
  obtain ⟨hv1, hv2, hlt, hnIns, hnOuts, hins⟩ := hwf
  have hinswf : ∀ i ∈ tx.ins, i.hash.length = 32 ∧ i.index < 2 ^ 32 ∧
      i.sequence < 2 ^ 32 ∧ i.script.length < 2 ^ 64 :=
    fun i hi => ⟨(hins i hi).1, (hins i hi).2.1, (hins i hi).2.2.1, (hins i hi).2.2.2.1⟩
  cases htx : tx.hasWitnesses with
  | true =>
      unfold toBufferAux fromBuffer
      simp only [htx, Bool.true_and, if_true, ADVANCED_TRANSACTION_MARKER,
        ADVANCED_TRANSACTION_FLAG, List.cons_append, List.nil_append,
        List.append_assoc]
      rw [readLEn_le4i]
      simp only [Option.some_bind]
      simp only [and_self, if_true, List.drop_succ_cons, List.drop_zero,
        reduceIte]
      rw [decodeVarInt_encodeVarInt _ _ hnIns]
      simp only [Option.some_bind]
      rw [readInputs_encodeInputs _ _ hinswf]
      simp only [Option.some_bind]
      rw [decodeVarInt_encodeVarInt _ _ hnOuts]
      simp only [Option.some_bind]
      rw [readOutputs_encodeOutputs _ _ hamt]
      simp only [Option.some_bind]
      rw [show (tx.ins.map fun input => encodeVector input.witness) =
            ((tx.ins.map fun i => i.witness).map encodeVector) by
          rw [List.map_map]
          rfl]
      rw [show tx.ins.length = (tx.ins.map fun i => i.witness).length by
          rw [List.length_map]]
      rw [readVectors_enc _ _ (by
        intro w hw
        simp only [List.mem_map] at hw
        obtain ⟨i, hi, rfl⟩ := hw
        exact ⟨(hins i hi).2.2.2.2.1, (hins i hi).2.2.2.2.2⟩)]
      simp only [Option.some_bind]
      rw [zipWith_restore_witness]
      rw [show (tx.ins.any fun x => x.witness.length != 0) = tx.hasWitnesses from rfl,
        htx]
      simp only [if_true]
      rw [← List.append_nil (le 4 tx.locktime), readLEn_le_of_lt _ _ _ (by simpa using hlt)]
      simp only [Option.some_bind, Bool.false_eq_true, if_false, reduceIte]
      rw [toI32_emod _ hv1 hv2]
  | false =>
      have hlen1 : 1 ≤ tx.ins.length := by
        cases hx : tx.ins with
        | nil => exact absurd hx hne
        | cons a b => simp [hx]
      obtain ⟨a, t, hat, hane⟩ := encodeVarInt_head_pos tx.ins.length hlen1
      have henc : tx.toBufferAux true =
          le4i tx.version ++ (encodeVarInt tx.ins.length ++
            ((tx.ins.map encodeInput).flatten ++ (encodeVarInt tx.outs.length ++
              ((tx.outs.map encodeOutput).flatten ++ le 4 tx.locktime)))) := by
        unfold toBufferAux
        simp [htx, List.append_assoc]
      rw [henc]
      unfold fromBuffer
      rw [readLEn_le4i]
      simp only [Option.some_bind]
      rw [hat]
      simp only [List.cons_append]
      cases hte : t ++ ((tx.ins.map encodeInput).flatten ++
          (encodeVarInt tx.outs.length ++
            ((tx.outs.map encodeOutput).flatten ++ le 4 tx.locktime))) with
      | nil =>
          exfalso
          rcases List.append_eq_nil.mp hte with ⟨-, h2⟩
          rcases List.append_eq_nil.mp h2 with ⟨-, h3⟩
          exact encodeVarInt_ne_nil _ (List.append_eq_nil.mp h3).1
      | cons f rest =>
          dsimp only
          rw [if_neg (fun hcon => hane (by
            simpa [ADVANCED_TRANSACTION_MARKER] using hcon.1))]
          rw [← hte, ← List.cons_append, ← hat]
          rw [decodeVarInt_encodeVarInt _ _ hnIns]
          simp only [Option.some_bind]
          rw [readInputs_encodeInputs _ _ hinswf]
          simp only [Option.some_bind]
          rw [decodeVarInt_encodeVarInt _ _ hnOuts]
          simp only [Option.some_bind]
          rw [readOutputs_encodeOutputs _ _ hamt]
          simp only [Option.some_bind]
          rw [if_neg (fun hcon => hane (by
            simpa [ADVANCED_TRANSACTION_MARKER] using hcon.1))]
          rw [← List.append_nil (le 4 tx.locktime), readLEn_le_of_lt _ _ _ (by simpa using hlt)]
          simp only [Option.some_bind, Bool.false_eq_true, if_false, reduceIte]
          rw [toI32_emod _ hv1 hv2, map_clear_of_no_witness _ htx]

end Transaction

namespace Transaction

/-- A zero-input transaction with exactly one output is not decodable: its
encoding starts `… 00 01 …` after the version, which the decoder consumes
as the witness marker+flag, and the witness path can only succeed with a
non-empty witness on some input. -/
theorem fromBuffer_zero_input_one_output (tx : Transaction)
    (hins0 : tx.ins = []) (houts1 : tx.outs.length = 1) :
    fromBuffer (tx.toBufferAux true) false ≠ some tx := by
  intro heq
  have hhw : tx.hasWitnesses = false := by simp [hasWitnesses, hins0]
  have henc : tx.toBufferAux true =
      le4i tx.version ++
        (0 :: 1 :: ((tx.outs.map encodeOutput).flatten ++ le 4 tx.locktime)) := by
    unfold toBufferAux
    simp [hhw, hins0, houts1, encodeVarInt, List.append_assoc]
  rw [henc] at heq
  unfold fromBuffer at heq
  rw [readLEn_le4i] at heq
  simp only [Option.some_bind] at heq
  simp only [ADVANCED_TRANSACTION_MARKER, ADVANCED_TRANSACTION_FLAG, and_self,
    if_true, reduceIte, List.drop_succ_cons, List.drop_zero] at heq
  cases h1 : decodeVarInt ((tx.outs.map encodeOutput).flatten ++ le 4 tx.locktime) with
  | none => rw [h1] at heq; simp at heq
  | some p =>
      obtain ⟨n, r3⟩ := p
      rw [h1] at heq
      simp only [Option.some_bind] at heq
      cases h2 : readInputs n r3 with
      | none => rw [h2] at heq; simp at heq
      | some q =>
          obtain ⟨ins0, r4⟩ := q
          rw [h2] at heq
          simp only [Option.some_bind] at heq
          cases h3 : decodeVarInt r4 with
          | none => rw [h3] at heq; simp at heq
          | some p2 =>
              obtain ⟨m, r5⟩ := p2
              rw [h3] at heq
              simp only [Option.some_bind] at heq
              cases h4 : readOutputs m r5 with
              | none => rw [h4] at heq; simp at heq
              | some q2 =>
                  obtain ⟨outs, r6⟩ := q2
                  rw [h4] at heq
                  simp only [Option.some_bind] at heq
                  cases h5 : readVectors n r6 with
                  | none => rw [h5] at heq; simp at heq
                  | some q3 =>
                      obtain ⟨vecs, r7⟩ := q3
                      rw [h5] at heq
                      simp only [Option.some_bind, Bool.false_eq_true,
                        if_false] at heq
                      split_ifs at heq with hany
                      · cases h6 : readLEn 4 r7 with
                        | none => rw [h6] at heq; simp at heq
                        | some z =>
                            obtain ⟨lt2, r8⟩ := z
                            rw [h6] at heq
                            simp only [Option.some_bind] at heq
                            split_ifs at heq with hr8
                            · rw [Option.some.injEq] at heq
                              rw [← heq] at hins0
                              simp only at hins0
                              rw [hins0] at hany
                              simp at hany

end Transaction

theorem foldl_add_shift {α : Type} (f : α → Nat) (l : List α) (n : Nat) :
    l.foldl (fun s x => s + f x) n = n + (l.map f).sum := by
  induction l generalizing n with
  | nil => simp
  | cons a t ih => simp [List.foldl_cons, ih, Nat.add_assoc]

theorem encodeVarInt_length (n : Nat) :
    (encodeVarInt n).length = encodingLength n := by
  unfold encodeVarInt encodingLength
  split_ifs <;> simp [le_length]

theorem varSlice_length (s : Bytes) : (varSlice s).length = varSliceSize s := by
  unfold varSlice varSliceSize
  simp [encodeVarInt_length]

theorem encodeVector_length (w : List Bytes) :
    (encodeVector w).length = vectorSize w := by
  unfold encodeVector vectorSize
  rw [show (fun (sum : Nat) (witness : Bytes) => sum + varSliceSize witness) =
        (fun sum witness => sum + varSliceSize witness) from rfl]
  rw [foldl_add_shift varSliceSize w 0]
  simp only [List.length_append, List.length_flatten, encodeVarInt_length,
    List.map_map]
  rw [show (List.length ∘ varSlice) = varSliceSize from funext varSlice_length]
  omega

namespace Transaction

theorem encodeInput_length (i : TxIn) (hh : i.hash.length = 32) :
    (encodeInput i).length = 40 + varSliceSize i.script := by
  unfold encodeInput
  simp [hh, le_length, varSlice_length]
  omega

theorem encodeOutput_length (o : TxOut)
    (hv : match o.value with | .amount _ => True | .raw b => b.length = 8) :
    (encodeOutput o).length = 8 + varSliceSize o.script := by
  unfold encodeOutput
  cases hov : o.value with
  | amount v => simp [le_length, varSlice_length]
  | raw b =>
      rw [hov] at hv
      simp only [List.length_append, varSlice_length]
      simp at hv
      omega

/-- The encoder emits exactly the number of bytes `__byteLength` predicts,
for both values of the witness-allowed flag. -/
theorem toBufferAux_length (tx : Transaction) (w : Bool)
    (hh : ∀ i ∈ tx.ins, i.hash.length = 32)
    (hv : ∀ o ∈ tx.outs, match o.value with
      | .amount _ => True | .raw b => b.length = 8) :
    (tx.toBufferAux w).length = tx.byteLengthW w := by
  unfold toBufferAux byteLengthW le4i
  have hins : ((tx.ins.map encodeInput).map List.length).sum =
      (tx.ins.map (fun i => 40 + varSliceSize i.script)).sum := by
    rw [List.map_map]
    congr 1
    exact List.map_congr_left fun i hi => encodeInput_length i (hh i hi)
  have houts : ((tx.outs.map encodeOutput).map List.length).sum =
      (tx.outs.map (fun o => 8 + varSliceSize o.script)).sum := by
    rw [List.map_map]
    congr 1
    exact List.map_congr_left fun o ho => encodeOutput_length o (hv o ho)
  have hfold1 : tx.ins.foldl (fun sum input => sum + 40 + varSliceSize input.script) 0 =
      (tx.ins.map (fun i => 40 + varSliceSize i.script)).sum := by
    rw [show (fun (sum : Nat) (input : TxIn) => sum + 40 + varSliceSize input.script) =
          (fun sum input => sum + (40 + varSliceSize input.script)) from
        funext fun s => funext fun i => by omega]
    rw [foldl_add_shift (fun (i : TxIn) => 40 + varSliceSize i.script) tx.ins 0]
    omega
  have hfold2 : tx.outs.foldl (fun sum output => sum + 8 + varSliceSize output.script) 0 =
      (tx.outs.map (fun o => 8 + varSliceSize o.script)).sum := by
    rw [show (fun (sum : Nat) (output : TxOut) => sum + 8 + varSliceSize output.script) =
          (fun sum output => sum + (8 + varSliceSize output.script)) from
        funext fun s => funext fun o => by omega]
    rw [foldl_add_shift (fun (o : TxOut) => 8 + varSliceSize o.script) tx.outs 0]
    omega
  have hfold3 : tx.ins.foldl (fun sum input => sum + vectorSize input.witness) 0 =
      ((tx.ins.map fun input => encodeVector input.witness).map List.length).sum := by
    rw [foldl_add_shift (fun (input : TxIn) => vectorSize input.witness) tx.ins 0]
    rw [List.map_map]
    simp only [Nat.zero_add]
    congr 1
    exact List.map_congr_left fun i _ => (encodeVector_length i.witness).symm
  cases hb : (w && tx.hasWitnesses) with
  | true =>
      simp only [hb, if_true, reduceIte]
      simp only [List.length_append, List.length_flatten, le_length,
        encodeVarInt_length, List.length_cons, List.length_nil]
      rw [hins, houts, hfold1, hfold2, hfold3]
      omega
  | false =>
      simp only [hb, Bool.false_eq_true, if_false, reduceIte]
      simp only [List.length_append, List.length_flatten, le_length,
        encodeVarInt_length, List.length_nil]
      rw [hins, houts, hfold1, hfold2]
      omega

end Transaction

namespace HeapModel

theorem getD_append_lt (st ext : InStore) (r : Nat) (h : r < st.length) :
    (st ++ ext).getD r default = st.getD r default := by
  simp only [List.getD_eq_getElem?_getD]
  rw [List.getElem?_append, if_pos h]

theorem length_setInRec (st : InStore) (j : Nat) (f : TxIn → TxIn) :
    (setInRec st j f).length = st.length := by
  simp [setInRec]

theorem getD_setInRec_ne (st : InStore) (r j : Nat) (f : TxIn → TxIn) (h : r ≠ j) :
    (setInRec st j f).getD r default = st.getD r default := by
  simp only [setInRec, List.getD_eq_getElem?_getD]
  rw [List.getElem?_set_ne (Ne.symm h)]

theorem getD_zeroSeqsGo (st : InStore) (refs : List Nat) (y k N r : Nat)
    (hr : r < N) (hrefs : ∀ x ∈ refs, N ≤ x) :
    (zeroSeqsGo st refs y k).getD r default = st.getD r default := by
  induction refs generalizing st y with
  | nil => rfl
  | cons x rs ih =>
      unfold zeroSeqsGo
      rw [ih _ _ (fun z hz => hrefs z (by simp [hz]))]
      split_ifs
      · rfl
      · exact getD_setInRec_ne st r x _ (by have := hrefs x (by simp); omega)

theorem getD_blankScripts (st : InStore) (refs : List Nat) (N r : Nat)
    (hr : r < N) (hrefs : ∀ x ∈ refs, N ≤ x) :
    (blankScripts st refs).getD r default = st.getD r default := by
  induction refs generalizing st with
  | nil => rfl
  | cons x rs ih =>
      unfold blankScripts
      simp only [List.foldl_cons]
      rw [show List.foldl (fun s r => setInRec s r fun i => { i with script := ([] : Bytes) }) =
            blankScripts from rfl]
      rw [ih _ (fun z hz => hrefs z (by simp [hz]))]
      exact getD_setInRec_ne st r x _ (by have := hrefs x (by simp); omega)

theorem getD_mem_of_lt {l : List Nat} {i : Nat} (h : i < l.length) :
    l.getD i 0 ∈ l := by
  rw [List.getD_eq_getElem?_getD, List.getElem?_eq_getElem h]
  exact List.getElem_mem h

theorem finishH_preserves (st : InStore) (txTmp : HeapTx) (i : Nat)
    (os : Bytes) (ht : Nat) (N r : Nat) (hr : r < N)
    (hrefs : ∀ x ∈ txTmp.ins, N ≤ x) (hi : i < txTmp.ins.length) :
    (finishH st txTmp i os ht).1.getD r default = st.getD r default := by
  have htarget : N ≤ txTmp.ins.getD i 0 := hrefs _ (getD_mem_of_lt hi)
  unfold finishH
  split_ifs
  · dsimp only
    exact getD_setInRec_ne st r (txTmp.ins.getD i 0) _ (by omega)
  · dsimp only
    rw [getD_setInRec_ne _ r (txTmp.ins.getD i 0) _ (by omega)]
    exact getD_blankScripts st txTmp.ins N r hr hrefs

/-- The final store of the heap-level legacy hasher agrees with the initial
store on every index below the initial length: all writes go to the
freshly allocated clone records. -/
theorem hashForSignatureH_preserves (st : InStore) (t : HeapTx) (inIndex : Nat)
    (prevOutScript : Bytes) (hashType : Nat) (r : Nat) (hr : r < st.length) :
    (hashForSignatureH st t inIndex prevOutScript hashType).1.getD r default =
      st.getD r default := by
  unfold hashForSignatureH cloneH
  have hrange : ∀ x ∈ List.range' st.length t.ins.length, st.length ≤ x :=
    fun x hx => (List.mem_range'_1.mp hx).1
  split_ifs with h1 h2 h3 h4
  · rfl
  · -- SIGHASH_NONE
    simp only []
    rw [finishH_preserves _ _ _ _ _ st.length r hr hrange (by
      simp only [List.length_range']
      omega)]
    rw [getD_zeroSeqsGo _ _ _ _ st.length r hr hrange]
    exact getD_append_lt st _ r hr
  · -- SIGHASH_SINGLE, out-of-range output index
    exact getD_append_lt st _ r hr
  · -- SIGHASH_SINGLE
    simp only []
    rw [finishH_preserves _ _ _ _ _ st.length r hr hrange (by
      simp only [List.length_range']
      omega)]
    rw [getD_zeroSeqsGo _ _ _ _ st.length r hr hrange]
    exact getD_append_lt st _ r hr
  · -- SIGHASH_ALL and everything else
    simp only []
    rw [finishH_preserves _ _ _ _ _ st.length r hr hrange (by
      simp only [List.length_range']
      omega)]
    exact getD_append_lt st _ r hr

end HeapModel

namespace Transaction

theorem legacy_ins_shape (l : List TxIn) (os : Bytes) (h1 : 1 < l.length) :
    ((l.mapIdx fun y inp => if y = 1 then inp else { inp with sequence := 0 }).map
        fun inp => { inp with script := ([] : Bytes) }).set 1
      { ((l.mapIdx fun y inp => if y = 1 then inp else { inp with sequence := 0 }).map
          fun inp => { inp with script := ([] : Bytes) }).getD 1 default with
        script := os } =
    l.mapIdx fun i inp =>
      { hash := inp.hash, index := inp.index,
        script := if i = 1 then os else [],
        sequence := if i = 1 then inp.sequence else 0, witness := inp.witness } := by
  have hlen : ((l.mapIdx fun y inp => if y = 1 then inp else { inp with sequence := 0 }).map
      fun inp => { inp with script := ([] : Bytes) }).length = l.length := by
    simp
  apply List.ext_getElem
  · simp
  · intro i hi1 hi2
    have hi : i < l.length := by simpa using hi2
    simp only [List.getElem_set, List.getElem_map, List.getElem_mapIdx]
    by_cases heq : i = 1
    · subst heq
      simp only [if_pos rfl, reduceIte]
      rw [List.getD_eq_getElem?_getD, List.getElem?_eq_getElem (by simpa using h1)]
      simp [List.getElem_map, List.getElem_mapIdx]
    · simp [heq, Ne.symm heq]

end Transaction

/-!  ## Claim theorems -/

open Transaction in
/-- C1 counterexample: the claim as stated is false at `in_index = 99` on
the empty transaction — the result is the constant `ONE`, but `ONE`'s first
byte is `0x00`, not `0x01` (it is 31 zero bytes followed by `0x01`). -/
theorem claim_C1_counterexample :
    txEmpty.hashForSignature 99 [] 1 = ONE ∧
      txEmpty.hashForSignature 99 [] 1 ≠ 1 :: List.replicate 31 0 := by
  decide

open Transaction in
/-- C1 (amended): for every transaction, previous-output script and
hash_type, if `in_index ≥ |inputs|` then `hashForSignature` returns the
32-byte constant `ONE`, whose LAST byte is `0x01` and whose first 31 bytes
are `0x00` (the 32-byte big-endian encoding of 1). -/
theorem claim_C1 (tx : Transaction) (inIndex : Nat) (prevOutScript : Bytes)
    (hashType : Nat) (h : tx.ins.length ≤ inIndex) :
    tx.hashForSignature inIndex prevOutScript hashType = ONE ∧
      ONE = List.replicate 31 0 ++ [1] := by
  constructor
  · unfold Transaction.hashForSignature
    rw [if_pos h]
  · decide

/-- C1 witness: the amended claim at a concrete out-of-range index. -/
theorem claim_C1_witness :
    txEmpty.hashForSignature 5 [] 1 = ONE ∧ ONE = List.replicate 31 0 ++ [1] :=
  claim_C1 txEmpty 5 [] 1 (by decide)

open Transaction in
/-- C2 counterexample: the zero-input one-output transaction `txZ1` breaks
`decode (encode T true) = T` — its encoding begins `00 01` after the
version, which the decoder consumes as the witness marker+flag, and the
decode fails. -/
theorem claim_C2_counterexample :
    Transaction.fromBuffer (txZ1.toBufferAux true) false ≠ some txZ1 := by
  decide

open Transaction in
/-- C2 (amended): for every well-formed transaction with at least one input
and numeric output values, strict decode inverts witness-allowed encode;
and whenever no input carries a witness, the witness-allowed and
witness-free encodings agree byte for byte. -/
theorem claim_C2 (tx : Transaction) (hwf : tx.WF) (hne : tx.ins ≠ [])
    (hamt : ∀ o ∈ tx.outs, amountOk o) :
    Transaction.fromBuffer (tx.toBufferAux true) false = some tx ∧
      (tx.hasWitnesses = false → tx.toBufferAux true = tx.toBufferAux false) := by
  refine ⟨fromBuffer_toBufferAux tx hwf hne hamt, fun h => ?_⟩
  unfold Transaction.toBufferAux
  simp [h]

open Transaction in
/-- C2 witness: the amended claim at a concrete witness transaction and a
concrete witness-free transaction. -/
theorem claim_C2_witness :
    (Transaction.fromBuffer (txW.toBufferAux true) false = some txW) ∧
      (Transaction.fromBuffer (txNW.toBufferAux true) false = some txNW ∧
        (txNW.hasWitnesses = false → txNW.toBufferAux true = txNW.toBufferAux false)) :=
  ⟨(claim_C2 txW (by decide) (by decide) (by decide)).1,
   claim_C2 txNW (by decide) (by decide) (by decide)⟩

open Transaction in
/-- C3 counterexample: the claim "no transaction with zero inputs is
decodable" is false at the empty transaction, whose encoding
`01000000 00 00 00000000` is strictly decoded back to itself (the two
bytes after the version are `00 00`, not the marker+flag pair). -/
theorem claim_C3_counterexample :
    txEmpty.ins = [] ∧
      Transaction.fromBuffer (txEmpty.toBufferAux true) false = some txEmpty := by
  decide

open Transaction in
/-- C3 (amended): the decoder accepts `(0x00, 0x01)` after the version as
marker+flag unconditionally; consequently a zero-input transaction with
EXACTLY ONE output is not decodable — strict decode of its encoding fails
or returns a different transaction.  (Zero-input transactions whose output
count is not 1 do decode, e.g. the empty transaction.) -/
theorem claim_C3 (tx : Transaction) (h0 : tx.ins = []) (h1 : tx.outs.length = 1) :
    Transaction.fromBuffer (tx.toBufferAux true) false ≠ some tx :=
  fromBuffer_zero_input_one_output tx h0 h1

/-- C3 witness: the amended claim at the concrete zero-input one-output
transaction. -/
theorem claim_C3_witness :
    Transaction.fromBuffer (txZ1.toBufferAux true) false ≠ some txZ1 :=
  claim_C3 txZ1 (by decide) (by decide)

open Transaction in
/-- C4: for every transaction (with 32-byte input hashes and 8-byte value
placeholders, as the data model requires) and both values of the
witness-allowed flag, the encoder emits exactly `__byteLength` bytes. -/
theorem claim_C4 (tx : Transaction) (w : Bool)
    (hh : ∀ i ∈ tx.ins, i.hash.length = 32)
    (hv : ∀ o ∈ tx.outs, valueLen8 o) :
    (tx.toBufferAux w).length = tx.byteLengthW w :=
  toBufferAux_length tx w hh (fun o ho => by
    have hvo := hv o ho
    unfold valueLen8 at hvo
    cases h : o.value with
    | amount v => trivial
    | raw b =>
        rw [h] at hvo
        simpa using hvo)

/-- C4 witness: size consistency at a concrete witness transaction, for
both flags. -/
theorem claim_C4_witness :
    (txW.toBufferAux true).length = txW.byteLengthW true ∧
      (txW.toBufferAux false).length = txW.byteLengthW false :=
  ⟨claim_C4 txW true (by decide) (by decide),
   claim_C4 txW false (by decide) (by decide)⟩

open Transaction in
/-- C5: `hashForSignature(1, …, SIGHASH_SINGLE)` on a transaction with
three outputs hashes a temporary whose outputs are `[BLANK, O1]` (length
2), whose inputs other than index 1 have sequence 0 and empty script, and
whose input 1 carries the prev script with `OP_CODESEPARATOR` removed;
`BLANK` is the empty script with the all-ones 8-byte value placeholder. -/
theorem claim_C5 (tx : Transaction) (prevOutScript : Bytes) (o0 o1 o2 : TxOut)
    (houts : tx.outs = [o0, o1, o2]) (hins : 1 < tx.ins.length) :
    tx.hashForSignature 1 prevOutScript SIGHASH_SINGLE =
      hash256 ((Transaction.mk tx.version tx.locktime
        (tx.ins.mapIdx fun i inp =>
          { hash := inp.hash, index := inp.index,
            script := if i = 1 then stripCodeSeparator prevOutScript else [],
            sequence := if i = 1 then inp.sequence else 0,
            witness := inp.witness })
        [BLANK_OUTPUT, o1]).toBufferAux false ++ le 4 SIGHASH_SINGLE) ∧
      BLANK_OUTPUT = { script := [], value := .raw (List.replicate 8 0xff) } := by
  refine ⟨?_, by decide⟩
  unfold Transaction.hashForSignature
  rw [if_neg (by omega), if_neg (by
    intro hcon
    rw [houts] at hcon
    simp at hcon)]
  suffices h : Transaction.legacyTmp tx 1 (stripCodeSeparator prevOutScript)
      SIGHASH_SINGLE =
      Transaction.mk tx.version tx.locktime
        (tx.ins.mapIdx fun i inp =>
          { hash := inp.hash, index := inp.index,
            script := if i = 1 then stripCodeSeparator prevOutScript else [],
            sequence := if i = 1 then inp.sequence else 0,
            witness := inp.witness })
        [BLANK_OUTPUT, o1] by
    rw [h]
  unfold Transaction.legacyTmp Transaction.legacyOutsRule
  rw [clone_eq]
  rw [if_neg (show ¬(SIGHASH_SINGLE &&& 0x1f = SIGHASH_NONE) from by decide),
    if_pos (show SIGHASH_SINGLE &&& 0x1f = SIGHASH_SINGLE from by decide)]
  unfold Transaction.legacyInsRule
  rw [if_neg (show ¬(SIGHASH_SINGLE &&& SIGHASH_ANYONECANPAY ≠ 0) from by decide)]
  simp only [Transaction.mk.injEq]
  refine ⟨trivial, trivial, ?_, ?_⟩
  · exact legacy_ins_shape tx.ins (stripCodeSeparator prevOutScript) hins
  · rw [houts]
    simp [List.mapIdx_cons]

open Transaction in
/-- C5 witness: the property at the concrete two-input three-output
transaction `txW` with prev script `[0xab]`. -/
theorem claim_C5_witness :
    txW.hashForSignature 1 [0xab] SIGHASH_SINGLE =
      hash256 ((Transaction.mk txW.version txW.locktime
        (txW.ins.mapIdx fun i inp =>
          { hash := inp.hash, index := inp.index,
            script := if i = 1 then stripCodeSeparator [0xab] else [],
            sequence := if i = 1 then inp.sequence else 0,
            witness := inp.witness })
        [BLANK_OUTPUT, ⟨[], .amount 60⟩]).toBufferAux false ++ le 4 SIGHASH_SINGLE) :=
  (claim_C5 txW [0xab] ⟨[1], .amount 50⟩ ⟨[], .amount 60⟩ ⟨[2], .amount 70⟩
    (by decide) (by decide)).1

open Transaction in
/-- C6 counterexample: at `hash_type = 0` (`ANYONECANPAY` unset, base mode
`0 ≠ ALL`) the code still hashes the concatenated sequences — the
sub-digest is not the 32 zero bytes the claim requires for every
non-`ALL` base mode. -/
theorem claim_C6_counterexample :
    (0 : Nat) &&& SIGHASH_ANYONECANPAY = 0 ∧ (0 : Nat) &&& 0x1f ≠ SIGHASH_ALL ∧
      tx1.hashSequence 0 ≠ ZERO := by
  decide

open Transaction in
/-- C6 (amended): `hashSequence` is `hash256` of the concatenated u32-LE
sequences exactly when `ANYONECANPAY` is unset AND the base mode is
neither `SINGLE` nor `NONE` (not only for base mode `ALL`), and the 32
zero bytes otherwise; when `ANYONECANPAY` is set, `hashPrevouts` is the 32
zero bytes while `hashOutputs` is still computed over all outputs for base
mode `ALL`. -/
theorem claim_C6 (tx : Transaction) (hashType : Nat) :
    (tx.hashSequence hashType =
      if hashType &&& SIGHASH_ANYONECANPAY = 0 ∧
          hashType &&& 0x1f ≠ SIGHASH_SINGLE ∧ hashType &&& 0x1f ≠ SIGHASH_NONE then
        hash256 ((tx.ins.map fun txIn => le 4 txIn.sequence).flatten)
      else ZERO) ∧
    (hashType &&& SIGHASH_ANYONECANPAY ≠ 0 →
      tx.hashPrevouts hashType = ZERO ∧
      (hashType &&& 0x1f = SIGHASH_ALL →
        ∀ inIndex, tx.hashOutputs inIndex hashType =
          hash256 ((tx.outs.map encodeOutput).flatten))) := by
  refine ⟨rfl, fun hacp => ⟨?_, fun hall inIndex => ?_⟩⟩
  · unfold Transaction.hashPrevouts
    rw [if_neg hacp]
  · unfold Transaction.hashOutputs
    rw [if_pos (by
      rw [hall]
      unfold SIGHASH_ALL SIGHASH_SINGLE SIGHASH_NONE
      omega)]

open Transaction in
/-- C6 witness: the amended claim at `hash_type = SIGHASH_ANYONECANPAY |
SIGHASH_ALL = 0x81` on a concrete transaction. -/
theorem claim_C6_witness :
    txW.hashPrevouts 0x81 = ZERO ∧
      txW.hashOutputs 0 0x81 = hash256 ((txW.outs.map encodeOutput).flatten) :=
  ⟨((claim_C6 txW 0x81).2 (by decide)).1,
   ((claim_C6 txW 0x81).2 (by decide)).2 (by decide) 0⟩

open Transaction in
/-- C7: the two legacy-sighash guards are in-band sentinel returns of
`ONE` — out-of-range input index, or `SINGLE` with out-of-range output
index — and in every other case the function takes the serialize-and-hash
path (returning `hash256` of the mutated clone's serialization with the
hash type appended), never the sentinel path. -/
theorem claim_C7 (tx : Transaction) (inIndex : Nat) (prevOutScript : Bytes)
    (hashType : Nat) :
    (tx.ins.length ≤ inIndex →
      tx.hashForSignature inIndex prevOutScript hashType = ONE) ∧
    (hashType &&& 0x1f = SIGHASH_SINGLE → tx.outs.length ≤ inIndex →
      tx.hashForSignature inIndex prevOutScript hashType = ONE) ∧
    (inIndex < tx.ins.length →
      (hashType &&& 0x1f = SIGHASH_SINGLE → inIndex < tx.outs.length) →
      tx.hashForSignature inIndex prevOutScript hashType =
        hash256 ((Transaction.legacyTmp tx inIndex
          (stripCodeSeparator prevOutScript) hashType).toBufferAux false ++
          le 4 hashType)) := by
  unfold Transaction.hashForSignature
  refine ⟨fun h => by rw [if_pos h], fun hs ho => ?_, fun hin hout => ?_⟩
  · split_ifs with h1 h2
    · rfl
    · rfl
    · exact absurd ⟨hs, ho⟩ h2
  · rw [if_neg (by omega), if_neg (by
      intro hcon
      have := hout hcon.1
      omega)]

open Transaction in
/-- C7 witness: all three cases at concrete inputs — out-of-range input,
`SINGLE` with out-of-range output, and the ordinary hashing path. -/
theorem claim_C7_witness :
    (txW.hashForSignature 9 [] 1 = ONE) ∧
    (tx1.hashForSignature 0 [] 3 = ONE) ∧
    (txW.hashForSignature 0 [] 1 =
      hash256 ((Transaction.legacyTmp txW 0 (stripCodeSeparator []) 1).toBufferAux
        false ++ le 4 1)) :=
  ⟨(claim_C7 txW 9 [] 1).1 (by decide),
   (claim_C7 tx1 0 [] 3).2.1 (by decide) (by decide),
   (claim_C7 txW 0 [] 1).2.2 (by decide) (by decide)⟩

open Transaction in
/-- C8: the empty transaction encodes to the 10 bytes
`01 00 00 00 00 00 00 00 00 00`; its witness-free byte length is 10, its
weight 40, and its virtual size 10. -/
theorem claim_C8 :
    txEmpty.toBufferAux true = [0x01, 0, 0, 0, 0, 0, 0, 0, 0, 0] ∧
      txEmpty.toBufferAux false = [0x01, 0, 0, 0, 0, 0, 0, 0, 0, 0] ∧
      txEmpty.byteLengthW false = 10 ∧ txEmpty.weight = 40 ∧
      txEmpty.virtualSize = 10 := by
  decide

open Transaction in
/-- C9: unlike the legacy hasher, `hashForWitnessV0` has no sentinel for an
out-of-range input index — it dereferences a nonexistent input and fails
(modelled as `none`) instead of returning a 32-byte hash. -/
theorem claim_C9 (tx : Transaction) (inIndex : Nat) (prevOutScript : Bytes)
    (value hashType : Nat) (h : tx.ins.length ≤ inIndex) :
    tx.hashForWitnessV0 inIndex prevOutScript value hashType = none := by
  unfold Transaction.hashForWitnessV0
  rw [List.getElem?_eq_none h]

/-- C9 witness: the out-of-range failure at a concrete index. -/
theorem claim_C9_witness : txW.hashForWitnessV0 7 [] 0 1 = none :=
  claim_C9 txW 7 [] 0 1 (by decide)

/-- C10: neither signature hasher mutates the transaction it is called on:
in the heap-explicit model, after the legacy hasher the observable
transaction (version, locktime, every input record, outputs) read through
the original references is unchanged — all writes go to the freshly
allocated clone — and the witness hasher returns the store untouched. -/
theorem claim_C10 (st : HeapModel.InStore) (t : HeapModel.HeapTx)
    (inIndex : Nat) (prevOutScript : Bytes) (hashType value vhashType : Nat)
    (href : ∀ r ∈ t.ins, r < st.length) :
    HeapModel.toTx
        (HeapModel.hashForSignatureH st t inIndex prevOutScript hashType).1 t =
      HeapModel.toTx st t ∧
    (HeapModel.hashForWitnessV0H st t inIndex prevOutScript value vhashType).1 =
      st := by
  constructor
  · simp only [HeapModel.toTx, Transaction.mk.injEq, true_and, and_true]
    exact List.map_congr_left fun r hr =>
      HeapModel.hashForSignatureH_preserves st t inIndex prevOutScript hashType r
        (href r hr)
  · rfl

/-- C10 witness: the frame property at a concrete store and transaction. -/
theorem claim_C10_witness :
    HeapModel.toTx
        (HeapModel.hashForSignatureH [inX] ⟨1, 0, [0], []⟩ 0 [] 1).1
        ⟨1, 0, [0], []⟩ =
      HeapModel.toTx [inX] ⟨1, 0, [0], []⟩ ∧
    (HeapModel.hashForWitnessV0H [inX] ⟨1, 0, [0], []⟩ 0 [] 0 1).1 = [inX] :=
  claim_C10 [inX] ⟨1, 0, [0], []⟩ 0 [] 1 0 1 (by decide)
